import Mathlib

/-!
Verification of the sequence batch builder, retrieval loss and training loop of
`bilstm_original/train_softmax_bi.py` (Polyvore BiLSTM outfit-compatibility trainer).

The builder works on a flat batch of per-garment embeddings plus a per-outfit
length list.  Embedding rows are modelled as opaque elements of a type `α`
(instantiated to `List K` rows when the scorer needs arithmetic).  PyTorch
library primitives used by the script (`pad_sequence`, `pack_padded_sequence`,
tensor slicing) are modelled from their documented semantics.
-/

namespace BiLSTMTrain

/-- Normalise a Python slice endpoint `i` for a sequence of length `n`:
negative indices count from the end, and everything is clamped into `[0, n]`.
This is the semantics used by `emb_seqs[a : b]` in the source. -/
def pyIdx (n : ℕ) (i : ℤ) : ℕ :=
  if i < 0 then ((n : ℤ) + i).toNat else min i.toNat n

/-- Python slice `l[a : b]` (step 1), including clamping and negative-index
wraparound, as performed by basic tensor indexing in the source. -/
def pySlice {α : Type} (l : List α) (a b : ℤ) : List α :=
  (l.take (pyIdx l.length b)).drop (pyIdx l.length a)

/-- The forward-input slicing loop of `train` (lines 117-121 of the source):
for each outfit length `L`, take `emb_seqs[start : start + L - 1]` and advance
`start` by `L`.  The accumulator argument is the running offset `start`. -/
def input_emb_list {α : Type} (emb : List α) : List ℕ → ℕ → List (List α)
  | [], _ => []
  | L :: ls, start =>
      pySlice emb (start : ℤ) ((start : ℤ) + (L : ℤ) - 1)
        :: input_emb_list emb ls (start + L)

/-- The forward-target slicing loop of `train` (lines 130-134 of the source):
for each outfit length `L`, take `emb_seqs[start + 1 : start + L]` and advance
`start` by `L`. -/
def target_emb_list {α : Type} (emb : List α) : List ℕ → ℕ → List (List α)
  | [], _ => []
  | L :: ls, start =>
      pySlice emb ((start : ℤ) + 1) ((start : ℤ) + (L : ℤ))
        :: target_emb_list emb ls (start + L)

/-- Maximum sequence length of a batch of (unpadded) sequences. -/
def maxLenOf {α : Type} (seqs : List (List α)) : ℕ :=
  (seqs.map List.length).foldr max 0

/-- `torch.nn.utils.rnn.pad_sequence(seqs, batch_first=True)`: pad every
sequence at the back with the neutral element `z` up to the batch maximum
length. -/
def padSequence {α : Type} (z : α) (seqs : List (List α)) : List (List α) :=
  seqs.map (fun s => s ++ List.replicate (maxLenOf seqs - s.length) z)

/-- `flip_tensor` (lines 94-100 of the source): build the index list
`[n-1, n-2, ..., 0]` and `index_select` along dimension 0. -/
def flip_tensor {α : Type} (t : List α) : List α :=
  ((List.range t.length).reverse).filterMap (fun i => t.get? i)

/-- `seq_lengths = torch.tensor([i - 1 for i in lengths])` (line 142 of the
source): the effective lengths, as signed integers. -/
def seqLengths (lengths : List ℕ) : List ℤ :=
  lengths.map (fun (i : ℕ) => (i : ℤ) - 1)

/-- The `.data` field of `torch.nn.utils.rnn.pack_padded_sequence`: the
valid timesteps in time-major order — for each timestep `t`, the row of
every batch element whose declared length exceeds `t`, in batch order. -/
def packedData {α : Type} (padded : List (List α)) (lens : List ℤ) : List α :=
  ((List.range (maxLenOf padded)).map
    (fun t => (padded.zip lens).filterMap
      (fun p => if ((t : ℕ) : ℤ) < p.2 then p.1.get? t else none))).flatten

/-- Non-increasing (descending) order check on declared lengths, as enforced by
`pack_padded_sequence`. -/
def sortedDesc : List ℤ → Bool
  | [] => true
  | [_] => true
  | a :: b :: rest => decide (b ≤ a) && sortedDesc (b :: rest)

/-- `torch.nn.utils.rnn.pack_padded_sequence(padded, lens, batch_first=True)[0]`,
modelled from PyTorch's documented behaviour: every declared length must be
positive and the lengths must be sorted in non-increasing order (the default
`enforce_sorted` behaviour); otherwise the call raises, modelled as `none`. -/
def pack_padded_sequence {α : Type} (padded : List (List α)) (lens : List ℤ) :
    Option (List α) :=
  if lens.all (fun L => 0 < L) && sortedDesc lens then
    some (packedData padded lens)
  else none

/-- The compacted forward-target tensor `f_target_embs` after lines 143-145 of
the source: pad the per-outfit target slices, then pack them with the
effective lengths. -/
def compactedTargets {α : Type} (z : α) (emb : List α) (lengths : List ℕ) :
    Option (List α) :=
  pack_padded_sequence (padSequence z (target_emb_list emb lengths 0))
    (seqLengths lengths)

/-- The compacted backward-target tensor `b_target_embs` after lines 146-148 of
the source: pad the flipped forward-input slices, then pack them with the
effective lengths. -/
def compactedBTargets {α : Type} (z : α) (emb : List α) (lengths : List ℕ) :
    Option (List α) :=
  pack_padded_sequence
    (padSequence z ((input_emb_list emb lengths 0).map flip_tensor))
    (seqLengths lengths)

/-- Specification-side description of the packed order: for each timestep `t`
(in increasing order), the `t`-th element of every sequence that is long
enough, in batch order. -/
def timeMajorFlatten {α : Type} (seqs : List (List α)) : List α :=
  ((List.range (maxLenOf seqs)).map
    (fun t => seqs.filterMap (fun s => s.get? t))).flatten

/-- `torch.arange(M)`: the label vector used by the retrieval loss. -/
def arangeLabels (M : ℕ) : List ℕ := List.range M

/-- Dot product of two embedding rows over the scalar field `K`. -/
def dot {K : Type} [Field K] (a b : List K) : K :=
  ((a.zip b).map (fun p => p.1 * p.2)).sum

/-- `torch.matmul(A, B.t())`: the similarity matrix whose `(i, j)` entry is
the dot product of row `i` of `A` with row `j` of `B`. -/
def matmulT {K : Type} [Field K] (A B : List (List K)) : List (List K) :=
  A.map (fun r => B.map (fun c => dot r c))

/-- `nn.CrossEntropyLoss()` applied to `scores` with the label vector
`torch.arange(scores.shape[0])` (the source's `criterion(score, arange)`):
mean over the rows of `log-sum-exp(row) - row[label]`.  `ex`/`lg` are the
exponential and logarithm maps of the scalar field (kept as parameters so the
definition stays executable).  A label outside a row's width raises in
PyTorch, modelled as `none`. -/
def criterion {K : Type} [Field K] (ex lg : K → K) (scores : List (List K)) :
    Option K :=
  if scores.enum.all (fun p => p.1 < p.2.length) then
    some ((((scores.enum).map
        (fun p => lg ((p.2.map ex).sum) - p.2.getD p.1 0)).sum) /
      (scores.length : K))
  else none

/-- The zero embedding row (`pad_sequence` pads with scalar zeros, which for a
`D`-dimensional embedding is the zero vector). -/
def zeroRow {K : Type} [Field K] (D : ℕ) : List K := List.replicate D 0

/-- One training-batch loss computation of `train` (lines 116-156 of the
source): slice forward inputs and targets with the running offset, pad, flip
before padding for the backward direction, pack the two target tensors with
the effective lengths, score each direction's encoder output against its
packed targets, apply the retrieval cross-entropy to each, and add the two
losses.  `F` and `B` are the forward and backward recurrent encoders
(`f_rnn`, `b_rnn`), consumed as black-box functions of the padded inputs and
the effective lengths.  Returns `(f_loss, b_loss, all_loss)`, or `none` where
the original raises. -/
def trainBatchLosses {K : Type} [Field K] (ex lg : K → K)
    (F B : List (List (List K)) → List ℤ → List (List K)) (D : ℕ)
    (emb : List (List K)) (lengths : List ℕ) : Option (K × K × K) :=
  let inputList := input_emb_list emb lengths 0
  let f_input_embs := padSequence (zeroRow D) inputList
  let b_target_pad := padSequence (zeroRow D) (inputList.map flip_tensor)
  let targetList := target_emb_list emb lengths 0
  let f_target_pad := padSequence (zeroRow D) targetList
  let b_input_embs := padSequence (zeroRow D) (targetList.map flip_tensor)
  let lens := seqLengths lengths
  match pack_padded_sequence f_target_pad lens,
      pack_padded_sequence b_target_pad lens with
  | some fT, some bT =>
      let f_output := F f_input_embs lens
      let f_score := matmulT f_output fT
      match criterion ex lg f_score with
      | some f_loss =>
          let b_output := B b_input_embs lens
          let b_score := matmulT b_output bT
          match criterion ex lg b_score with
          | some b_loss => some (f_loss, b_loss, f_loss + b_loss)
          | none => none
      | none => none
  | none, _ => none
  | _, none => none

/-- One validation-batch loss computation of `train` (lines 199-246 of the
source).  The body of the validation loop repeats the training loop's forward
computation verbatim (inside `torch.no_grad()` and without any optimizer
interaction), so this definition is the line-by-line transcription of that
duplicated block. -/
def valBatchLosses {K : Type} [Field K] (ex lg : K → K)
    (F B : List (List (List K)) → List ℤ → List (List K)) (D : ℕ)
    (emb : List (List K)) (lengths : List ℕ) : Option (K × K × K) :=
  let inputList := input_emb_list emb lengths 0
  let f_input_embs := padSequence (zeroRow D) inputList
  let b_target_pad := padSequence (zeroRow D) (inputList.map flip_tensor)
  let targetList := target_emb_list emb lengths 0
  let f_target_pad := padSequence (zeroRow D) targetList
  let b_input_embs := padSequence (zeroRow D) (targetList.map flip_tensor)
  let lens := seqLengths lengths
  match pack_padded_sequence f_target_pad lens,
      pack_padded_sequence b_target_pad lens with
  | some fT, some bT =>
      let f_output := F f_input_embs lens
      let f_score := matmulT f_output fT
      match criterion ex lg f_score with
      | some f_loss =>
          let b_output := B b_input_embs lens
          let b_score := matmulT b_output bT
          match criterion ex lg b_score with
          | some b_loss => some (f_loss, b_loss, f_loss + b_loss)
          | none => none
      | none => none
  | none, _ => none
  | _, none => none

/-- Observable actions of one epoch of `train`, in program order. -/
inductive Event : Type
  | schedStep : Event
  | optStep : Event
  | saveF : Event
  | saveB : Event
  | saveEnc : Event
  | valBatch : Event
  deriving DecidableEq, Repr

/-- The action trace of one epoch of `train` (lines 104-252 of the source)
with `nT` training batches and `nV` validation batches: `scheduler.step()`
first, then one `optimizer.step()` per training batch, then the three
checkpoint saves (`f_rnn`, `b_rnn`, `encoder_cnn`, to fixed epoch-independent
filenames), then the validation batches. -/
def epochEvents (nT nV : ℕ) : List Event :=
  Event.schedStep ::
    (List.replicate nT Event.optStep ++
      [Event.saveF, Event.saveB, Event.saveEnc] ++
      List.replicate nV Event.valBatch)

/-- The action trace of a whole run of `train` over `eps` epochs. -/
def runEvents (eps nT nV : ℕ) : List Event :=
  ((List.range eps).map (fun _ => epochEvents nT nV)).flatten

/-- Effect of a single traced action on the model parameters `p`: only an
optimizer step (`upd`) changes them; scheduler steps, checkpoint writes and
validation batches leave them untouched. -/
def stepParam {P : Type} (upd : P → P) (p : P) : Event → P
  | Event.optStep => upd p
  | _ => p

/-! ### Helper lemmas about the builder primitives -/

theorem filterMap_range_get? {α : Type} (l : List α) :
    (List.range l.length).filterMap (fun i => l.get? i) = l := by
  induction l with
  | nil => rfl
  | cons x xs ih =>
      rw [List.length_cons, List.range_succ_eq_map, List.filterMap_cons,
        List.filterMap_map]
      simp only [List.get?_cons_zero, Function.comp_def, List.get?_cons_succ]
      rw [ih]

/-- `flip_tensor` is exactly list reversal. -/
theorem flip_tensor_eq_reverse {α : Type} (t : List α) :
    flip_tensor t = t.reverse := by
  rw [flip_tensor, List.filterMap_reverse, filterMap_range_get?]

theorem pyIdx_natCast (n k : ℕ) : pyIdx n (k : ℤ) = min k n := by
  simp [pyIdx]

theorem pySlice_natCast {α : Type} (l : List α) (s e : ℕ) :
    pySlice l (s : ℤ) (e : ℤ) = (l.take (min e l.length)).drop (min s l.length) := by
  simp [pySlice, pyIdx_natCast]

theorem pySlice_eq_drop_take {α : Type} (l : List α) (s e : ℕ)
    (he : e ≤ l.length) (hs : s ≤ e) :
    pySlice l (s : ℤ) (e : ℤ) = (l.drop s).take (e - s) := by
  rw [pySlice_natCast, Nat.min_eq_left he, Nat.min_eq_left (le_trans hs he)]
  exact List.drop_take e s l

theorem pySlice_self {α : Type} (l : List α) (a : ℤ) : pySlice l a a = [] := by
  apply List.drop_eq_nil_of_le
  simp

theorem length_input_emb_list {α : Type} (emb : List α) :
    ∀ (ls : List ℕ) (start : ℕ), (input_emb_list emb ls start).length = ls.length
  | [], _ => rfl
  | L :: ls, start => by
      simp [input_emb_list, length_input_emb_list emb ls]

theorem length_target_emb_list {α : Type} (emb : List α) :
    ∀ (ls : List ℕ) (start : ℕ), (target_emb_list emb ls start).length = ls.length
  | [], _ => rfl
  | L :: ls, start => by
      simp [target_emb_list, length_target_emb_list emb ls]

/-- The running offset of the input-slicing loop equals the prefix sum of the
preceding lengths. -/
theorem input_emb_list_get? {α : Type} (emb : List α) :
    ∀ (ls : List ℕ) (start i : ℕ),
      (input_emb_list emb ls start).get? i =
        (ls.get? i).map (fun (L : ℕ) =>
          pySlice emb ((start + (ls.take i).sum : ℕ) : ℤ)
            (((start + (ls.take i).sum : ℕ) : ℤ) + (L : ℤ) - 1))
  | [], _, i => by simp [input_emb_list]
  | L :: ls, start, 0 => by simp [input_emb_list]
  | L :: ls, start, (i + 1) => by
      rw [input_emb_list, List.get?_cons_succ, List.take_succ_cons, List.sum_cons,
        input_emb_list_get? emb ls (start + L) i,
        show start + L + (ls.take i).sum = start + (L + (ls.take i).sum) from by omega,
        List.get?_cons_succ]

/-- The running offset of the target-slicing loop equals the prefix sum of the
preceding lengths. -/
theorem target_emb_list_get? {α : Type} (emb : List α) :
    ∀ (ls : List ℕ) (start i : ℕ),
      (target_emb_list emb ls start).get? i =
        (ls.get? i).map (fun (L : ℕ) =>
          pySlice emb (((start + (ls.take i).sum : ℕ) : ℤ) + 1)
            (((start + (ls.take i).sum : ℕ) : ℤ) + (L : ℤ)))
  | [], _, i => by simp [target_emb_list]
  | L :: ls, start, 0 => by simp [target_emb_list]
  | L :: ls, start, (i + 1) => by
      rw [target_emb_list, List.get?_cons_succ, List.take_succ_cons, List.sum_cons,
        target_emb_list_get? emb ls (start + L) i,
        show start + L + (ls.take i).sum = start + (L + (ls.take i).sum) from by omega,
        List.get?_cons_succ]

theorem sum_take_add_le (ls : List ℕ) :
    ∀ (i L : ℕ), ls.get? i = some L → (ls.take i).sum + L ≤ ls.sum := by
  induction ls with
  | nil => intro i L h; simp at h
  | cons a as ih =>
      intro i L h
      cases i with
      | zero =>
          simp only [List.get?_cons_zero, Option.some.injEq] at h
          subst h
          simp
      | succ i =>
          rw [List.get?_cons_succ] at h
          have := ih i L h
          simp only [List.take_succ_cons, List.sum_cons]
          omega

/-- The forward-input row of outfit `i`: rows `[s, s + L - 2]` of the flat
embedding tensor, where `s` is the prefix sum of the preceding lengths. -/
theorem input_row {α : Type} (emb : List α) (lengths : List ℕ) (i L : ℕ)
    (hsum : lengths.sum = emb.length) (hall : ∀ M ∈ lengths, 2 ≤ M)
    (hL : lengths.get? i = some L) :
    (input_emb_list emb lengths 0).get? i
      = some ((emb.drop ((lengths.take i).sum)).take (L - 1)) := by
  have hL2 : 2 ≤ L := hall L (List.get?_mem hL)
  have hbound := sum_take_add_le lengths i L hL
  rw [input_emb_list_get? emb lengths 0 i, hL]
  set s := (lengths.take i).sum with hs
  simp only [Nat.zero_add, Option.map_some']
  rw [show ((s : ℤ) + (L : ℤ) - 1) = (((s + L - 1 : ℕ)) : ℤ) from by omega,
    pySlice_eq_drop_take emb s (s + L - 1) (by omega) (by omega),
    show s + L - 1 - s = L - 1 from by omega]

/-- The forward-target row of outfit `i`: rows `[s + 1, s + L - 1]` of the
flat embedding tensor. -/
theorem target_row {α : Type} (emb : List α) (lengths : List ℕ) (i L : ℕ)
    (hsum : lengths.sum = emb.length) (hall : ∀ M ∈ lengths, 2 ≤ M)
    (hL : lengths.get? i = some L) :
    (target_emb_list emb lengths 0).get? i
      = some ((emb.drop ((lengths.take i).sum + 1)).take (L - 1)) := by
  have hL2 : 2 ≤ L := hall L (List.get?_mem hL)
  have hbound := sum_take_add_le lengths i L hL
  rw [target_emb_list_get? emb lengths 0 i, hL]
  set s := (lengths.take i).sum with hs
  simp only [Nat.zero_add, Option.map_some']
  rw [show ((s : ℤ) + 1) = (((s + 1 : ℕ)) : ℤ) from by omega,
    show ((s : ℤ) + (L : ℤ)) = (((s + L : ℕ)) : ℤ) from by omega,
    pySlice_eq_drop_take emb (s + 1) (s + L) (by omega) (by omega),
    show s + L - (s + 1) = L - 1 from by omega]

theorem drop_take_length {α : Type} (emb : List α) (s n : ℕ)
    (h : s + n ≤ emb.length) : ((emb.drop s).take n).length = n := by
  simp only [List.length_take, List.length_drop]
  omega

theorem padSequence_get? {α : Type} (z : α) (L : List (List α)) (i : ℕ) :
    (padSequence z L).get? i
      = (L.get? i).map (fun l => l ++ List.replicate (maxLenOf L - l.length) z) := by
  simp [padSequence, List.get?_map]

theorem map_flip_get? {α : Type} (L : List (List α)) (i : ℕ) :
    (L.map flip_tensor).get? i = (L.get? i).map List.reverse := by
  rw [List.get?_map]
  cases L.get? i <;> simp [flip_tensor_eq_reverse]

theorem pad_flip_get? {α : Type} (z : α) (L : List (List α)) (i : ℕ) :
    (padSequence z (L.map flip_tensor)).get? i
      = (L.get? i).map (fun l =>
          l.reverse ++ List.replicate (maxLenOf (L.map flip_tensor) - l.length) z) := by
  rw [padSequence_get?, map_flip_get?]
  cases L.get? i <;> simp

theorem maxLenOf_cons {α : Type} (r : List α) (rs : List (List α)) :
    maxLenOf (r :: rs) = max r.length (maxLenOf rs) := rfl

theorem le_maxLenOf {α : Type} (rows : List (List α)) :
    ∀ r ∈ rows, r.length ≤ maxLenOf rows := by
  induction rows with
  | nil => simp
  | cons r rs ih =>
      intro x hx
      rcases List.mem_cons.mp hx with rfl | hx
      · rw [maxLenOf_cons]; exact le_max_left _ _
      · exact le_trans (ih x hx) (by rw [maxLenOf_cons]; exact le_max_right _ _)

theorem foldr_max_replicate (n T : ℕ) :
    (List.replicate n T).foldr max 0 = if n = 0 then 0 else T := by
  induction n with
  | zero => rfl
  | succ n ih =>
      rw [List.replicate_succ, List.foldr_cons, ih]
      cases n <;> simp

/-- Padding to the batch maximum does not change the batch maximum. -/
theorem maxLenOf_padSequence {α : Type} (z : α) (rows : List (List α)) :
    maxLenOf (padSequence z rows) = maxLenOf rows := by
  have h1 : (padSequence z rows).map List.length
      = rows.map (fun _ => maxLenOf rows) := by
    rw [padSequence, List.map_map]
    apply List.map_congr_left
    intro r hr
    have := le_maxLenOf rows r hr
    simp only [Function.comp_apply, List.length_append, List.length_replicate]
    omega
  show ((padSequence z rows).map List.length).foldr max 0 = maxLenOf rows
  rw [h1, List.map_const', foldr_max_replicate]
  cases rows with
  | nil => rfl
  | cons r rs => simp

/-- Removing the padding again: packing a padded batch whose declared lengths
are the true (pre-padding) row lengths yields exactly the time-major
flattening of the unpadded rows. -/
theorem packedData_padSequence {α : Type} (z : α) (rows : List (List α)) :
    packedData (padSequence z rows) (rows.map (fun r => (r.length : ℤ)))
      = timeMajorFlatten rows := by
  unfold packedData timeMajorFlatten
  rw [maxLenOf_padSequence]
  congr 1
  apply List.map_congr_left
  intro t _
  conv_lhs => rw [padSequence]
  rw [List.zip_map', List.filterMap_map]
  apply List.filterMap_congr
  intro r _
  simp only [Function.comp_apply]
  by_cases hlt : t < r.length
  · rw [if_pos (show ((t : ℕ) : ℤ) < ((r.length : ℕ) : ℤ) from by omega)]
    exact List.get?_append hlt
  · rw [if_neg (show ¬((t : ℕ) : ℤ) < ((r.length : ℕ) : ℤ) from by omega)]
    exact (List.get?_eq_none.mpr (by omega)).symm

theorem pack_padSequence_eq {α : Type} (z : α) (rows : List (List α))
    (lens : List ℤ) (hl : lens = rows.map (fun r => (r.length : ℤ)))
    (hpos : lens.all (fun L => 0 < L) = true)
    (hsort : sortedDesc lens = true) :
    pack_padded_sequence (padSequence z rows) lens
      = some (timeMajorFlatten rows) := by
  rw [pack_padded_sequence, if_pos (by rw [hpos, hsort]; rfl), hl,
    packedData_padSequence]

/-- Under the batch-validity hypotheses, the effective-length vector is
exactly the list of forward-target row lengths. -/
theorem seqLengths_eq_target_lengths {α : Type} (emb : List α)
    (lengths : List ℕ) (hsum : lengths.sum = emb.length)
    (hall : ∀ M ∈ lengths, 2 ≤ M) :
    seqLengths lengths
      = (target_emb_list emb lengths 0).map (fun r => (r.length : ℤ)) := by
  apply List.ext
  intro i
  rw [seqLengths, List.get?_map, List.get?_map]
  cases hL : lengths.get? i with
  | none =>
      have hlen : lengths.length ≤ i := List.get?_eq_none.mp hL
      have h2 : (target_emb_list emb lengths 0).get? i = none :=
        List.get?_eq_none.mpr (by rw [length_target_emb_list]; omega)
      rw [h2]
      simp
  | some L =>
      have hL2 : 2 ≤ L := hall L (List.get?_mem hL)
      have hbound := sum_take_add_le lengths i L hL
      rw [target_row emb lengths i L hsum hall hL]
      have hlen := drop_take_length emb ((lengths.take i).sum + 1) (L - 1)
        (by omega)
      simp only [Option.map_some', hlen]
      congr 1
      omega

/-- Same fact over natural numbers: the forward-target row lengths are the
effective lengths `lengths[i] - 1`. -/
theorem target_lengths_nat {α : Type} (emb : List α)
    (lengths : List ℕ) (hsum : lengths.sum = emb.length)
    (hall : ∀ M ∈ lengths, 2 ≤ M) :
    (target_emb_list emb lengths 0).map List.length
      = lengths.map (fun M => M - 1) := by
  apply List.ext
  intro i
  rw [List.get?_map, List.get?_map]
  cases hL : lengths.get? i with
  | none =>
      have hlen : lengths.length ≤ i := List.get?_eq_none.mp hL
      have h2 : (target_emb_list emb lengths 0).get? i = none :=
        List.get?_eq_none.mpr (by rw [length_target_emb_list]; omega)
      rw [h2]
      simp
  | some L =>
      have hL2 : 2 ≤ L := hall L (List.get?_mem hL)
      have hbound := sum_take_add_le lengths i L hL
      rw [target_row emb lengths i L hsum hall hL]
      have hlen := drop_take_length emb ((lengths.take i).sum + 1) (L - 1)
        (by omega)
      simp only [Option.map_some', hlen]

/-- Every length at least 2 makes every effective length positive. -/
theorem seqLengths_pos (lengths : List ℕ) (hall : ∀ M ∈ lengths, 2 ≤ M) :
    (seqLengths lengths).all (fun L => 0 < L) = true := by
  rw [List.all_eq_true]
  intro x hx
  rw [seqLengths] at hx
  obtain ⟨M, hM, rfl⟩ := List.mem_map.mp hx
  have := hall M hM
  simp only [decide_eq_true_eq]
  omega

/-! ### Claim theorems -/

/-- C1.  For a batch of `N` embedding rows and per-outfit lengths summing to
`N` with every length at least 2, the builder slices with a running offset
equal to the prefix sum of the preceding lengths: outfit `i` (offset `s`,
length `L`) gets forward-input rows `[s, s + L - 2]` (length `L - 1`),
forward-target rows `[s + 1, s + L - 1]` (length `L - 1`), and the
effective-length vector is `lengths[i] - 1` entrywise. -/
theorem claim1_slicing_running_offset {α : Type} (emb : List α)
    (lengths : List ℕ) (i L : ℕ)
    (hsum : lengths.sum = emb.length) (hall : ∀ M ∈ lengths, 2 ≤ M)
    (hL : lengths.get? i = some L) :
    (input_emb_list emb lengths 0).get? i
        = some ((emb.drop ((lengths.take i).sum)).take (L - 1)) ∧
    ((emb.drop ((lengths.take i).sum)).take (L - 1)).length = L - 1 ∧
    (target_emb_list emb lengths 0).get? i
        = some ((emb.drop ((lengths.take i).sum + 1)).take (L - 1)) ∧
    ((emb.drop ((lengths.take i).sum + 1)).take (L - 1)).length = L - 1 ∧
    seqLengths lengths = lengths.map (fun (M : ℕ) => (M : ℤ) - 1) := by
  have hL2 : 2 ≤ L := hall L (List.get?_mem hL)
  have hbound := sum_take_add_le lengths i L hL
  refine ⟨input_row emb lengths i L hsum hall hL, ?_,
    target_row emb lengths i L hsum hall hL, ?_, rfl⟩
  · exact drop_take_length emb _ _ (by omega)
  · exact drop_take_length emb _ _ (by omega)

/-- Witness for C1 at `lengths = [3, 4]` over seven concrete embedding rows. -/
theorem claim1_witness :
    (input_emb_list ([0, 1, 2, 3, 4, 5, 6] : List ℕ) [3, 4] 0).get? 1
        = some ((([0, 1, 2, 3, 4, 5, 6] : List ℕ).drop (([3, 4].take 1).sum)).take (4 - 1)) ∧
    ((([0, 1, 2, 3, 4, 5, 6] : List ℕ).drop (([3, 4].take 1).sum)).take (4 - 1)).length = 4 - 1 ∧
    (target_emb_list ([0, 1, 2, 3, 4, 5, 6] : List ℕ) [3, 4] 0).get? 1
        = some ((([0, 1, 2, 3, 4, 5, 6] : List ℕ).drop (([3, 4].take 1).sum + 1)).take (4 - 1)) ∧
    ((([0, 1, 2, 3, 4, 5, 6] : List ℕ).drop (([3, 4].take 1).sum + 1)).take (4 - 1)).length = 4 - 1 ∧
    seqLengths [3, 4] = [3, 4].map (fun (M : ℕ) => (M : ℤ) - 1) :=
  claim1_slicing_running_offset [0, 1, 2, 3, 4, 5, 6] [3, 4] 1 4
    (by decide) (by decide) (by decide)

/-- C3.  For every outfit independently, the pre-padding backward-target row
is the reverse of the forward-input row and the pre-padding backward-input
row is the reverse of the forward-target row; and because the flip is applied
before `pad_sequence`, every padded backward row consists of the reversed
valid elements first, followed by the padding — no padding at the front. -/
theorem claim3_backward_reversal {α : Type} (z : α) (emb : List α)
    (lengths : List ℕ) (i : ℕ) :
    ((input_emb_list emb lengths 0).map flip_tensor).get? i
        = ((input_emb_list emb lengths 0).get? i).map List.reverse ∧
    ((target_emb_list emb lengths 0).map flip_tensor).get? i
        = ((target_emb_list emb lengths 0).get? i).map List.reverse ∧
    (padSequence z ((input_emb_list emb lengths 0).map flip_tensor)).get? i
        = ((input_emb_list emb lengths 0).get? i).map (fun l =>
            l.reverse ++ List.replicate
              (maxLenOf ((input_emb_list emb lengths 0).map flip_tensor) - l.length) z) ∧
    (padSequence z ((target_emb_list emb lengths 0).map flip_tensor)).get? i
        = ((target_emb_list emb lengths 0).get? i).map (fun l =>
            l.reverse ++ List.replicate
              (maxLenOf ((target_emb_list emb lengths 0).map flip_tensor) - l.length) z) :=
  ⟨map_flip_get? _ i, map_flip_get? _ i, pad_flip_get? z _ i, pad_flip_get? z _ i⟩

/-- C2 counterexample.  For the concrete batch `lengths = [3, 3]` over six
embedding rows, the compacted target tensor is `[1, 4, 2, 5]` — the packed
time-major order — and not the outfit-by-outfit contiguous flattening
`[1, 2, 4, 5]` asserted by the claim. -/
theorem claim2_packed_not_outfit_contiguous :
    compactedTargets (99 : ℕ) [0, 1, 2, 3, 4, 5] [3, 3] = some [1, 4, 2, 5] ∧
    (target_emb_list ([0, 1, 2, 3, 4, 5] : List ℕ) [3, 3] 0).flatten = [1, 2, 4, 5] ∧
    ([1, 4, 2, 5] : List ℕ) ≠ [1, 2, 4, 5] := by
  decide

/-- C2 (amended).  For a valid batch (lengths summing to the row count, every
length at least 2, effective lengths sorted non-increasingly), the compacted
target tensor lists the valid target embeddings in packed time-major order:
for each timestep `t` in increasing order, the `t`-th valid target of every
outfit whose effective length exceeds `t`, in outfit order.  The label for row
`j` of the similarity matrix is `j` (`torch.arange`). -/
theorem claim2_amended_time_major {α : Type} (z : α) (emb : List α)
    (lengths : List ℕ) (j : ℕ)
    (hsum : lengths.sum = emb.length) (hall : ∀ M ∈ lengths, 2 ≤ M)
    (hsort : sortedDesc (seqLengths lengths) = true)
    (hj : j < (lengths.map (fun M => M - 1)).sum) :
    compactedTargets z emb lengths
        = some (timeMajorFlatten (target_emb_list emb lengths 0)) ∧
    (arangeLabels ((lengths.map (fun M => M - 1)).sum)).get? j = some j := by
  constructor
  · rw [compactedTargets]
    exact pack_padSequence_eq z (target_emb_list emb lengths 0)
      (seqLengths lengths) (seqLengths_eq_target_lengths emb lengths hsum hall)
      (seqLengths_pos lengths hall) hsort
  · exact List.get?_range hj

/-- Witness for the amended C2 at `lengths = [3, 3]`. -/
theorem claim2_amended_witness :
    compactedTargets (99 : ℕ) [0, 1, 2, 3, 4, 5] [3, 3]
        = some (timeMajorFlatten (target_emb_list ([0, 1, 2, 3, 4, 5] : List ℕ) [3, 3] 0)) ∧
    (arangeLabels (([3, 3].map (fun M => M - 1)).sum)).get? 0 = some 0 :=
  claim2_amended_time_major 99 [0, 1, 2, 3, 4, 5] [3, 3] 0
    (by decide) (by decide) (by decide) (by decide)

/-- C5 counterexample.  With 3 embedding rows and `lengths = [5]` (sum 5 ≠ 3)
the builder slices anyway and Python clamping silently truncates the slice to
3 rows instead of the expected 4; with `lengths = [0]` the slice end index
`start + 0 - 1 = -1` wraps around and returns all but the last row.  No error
is raised before slicing. -/
theorem claim5_silent_truncation :
    input_emb_list ([0, 1, 2] : List ℕ) [5] 0 = [[0, 1, 2]] ∧
    ([0, 1, 2] : List ℕ).length ≠ 5 - 1 ∧
    input_emb_list ([0, 1, 2] : List ℕ) [0] 0 = [[0, 1]] := by
  decide

/-- C5 (amended).  The builder performs no validation: slicing always
proceeds (one slice per outfit, with Python clamping/wraparound semantics),
and when some outfit has length below 2 the only fatal error is raised later,
by `pack_padded_sequence`, which rejects the nonpositive effective length. -/
theorem claim5_amended_no_validation {α : Type} (z : α) (emb : List α)
    (lengths : List ℕ) (hbad : ∃ L ∈ lengths, L < 2) :
    (input_emb_list emb lengths 0).length = lengths.length ∧
    (target_emb_list emb lengths 0).length = lengths.length ∧
    compactedTargets z emb lengths = none ∧
    compactedBTargets z emb lengths = none := by
  obtain ⟨L, hLmem, hL2⟩ := hbad
  have hfalse : (seqLengths lengths).all (fun L => 0 < L) = false := by
    rw [List.all_eq_false]
    exact ⟨(L : ℤ) - 1, List.mem_map.mpr ⟨L, hLmem, rfl⟩, by
      simp only [decide_eq_true_eq]; omega⟩
  refine ⟨length_input_emb_list emb lengths 0,
    length_target_emb_list emb lengths 0, ?_, ?_⟩ <;>
    simp [compactedTargets, compactedBTargets, pack_padded_sequence, hfalse]

/-- Witness for the amended C5 at `lengths = [2, 1]`. -/
theorem claim5_amended_witness :
    (input_emb_list ([0, 1, 2] : List ℕ) [2, 1] 0).length = ([2, 1] : List ℕ).length ∧
    (target_emb_list ([0, 1, 2] : List ℕ) [2, 1] 0).length = ([2, 1] : List ℕ).length ∧
    compactedTargets (99 : ℕ) [0, 1, 2] [2, 1] = none ∧
    compactedBTargets (99 : ℕ) [0, 1, 2] [2, 1] = none :=
  claim5_amended_no_validation 99 [0, 1, 2] [2, 1] (by decide)

/-- C7 counterexample.  For `lengths = [2, 1]` the length-1 outfit does get an
all-padding row in the padded forward-input tensor, but the batch never
reaches the loss: `pack_padded_sequence` rejects the zero effective length,
so no compacted targets (and no loss denominator) exist for the batch. -/
theorem claim7_pack_rejects_length_one :
    padSequence (99 : ℕ) (input_emb_list ([0, 1, 2] : List ℕ) [2, 1] 0) = [[0], [99]] ∧
    compactedTargets (99 : ℕ) ([0, 1, 2] : List ℕ) [2, 1] = none ∧
    compactedBTargets (99 : ℕ) ([0, 1, 2] : List ℕ) [2, 1] = none := by
  decide

/-- C7 (amended).  An outfit of original length 1 yields empty forward-input
and forward-target slices, occupies one all-padding row in each padded batch
tensor, and the batch is then rejected by `pack_padded_sequence` (zero
effective length), so no compacted targets and no loss are ever produced for
a batch containing such an outfit. -/
theorem claim7_amended_padding_row_then_error {α : Type} (z : α) (emb : List α)
    (lengths : List ℕ) (i : ℕ) (h1 : lengths.get? i = some 1) :
    (input_emb_list emb lengths 0).get? i = some [] ∧
    (target_emb_list emb lengths 0).get? i = some [] ∧
    (padSequence z (input_emb_list emb lengths 0)).get? i
        = some (List.replicate (maxLenOf (input_emb_list emb lengths 0)) z) ∧
    (padSequence z (target_emb_list emb lengths 0)).get? i
        = some (List.replicate (maxLenOf (target_emb_list emb lengths 0)) z) ∧
    compactedTargets z emb lengths = none ∧
    compactedBTargets z emb lengths = none := by
  have hin : (input_emb_list emb lengths 0).get? i = some [] := by
    rw [input_emb_list_get? emb lengths 0 i, h1]
    simp only [Option.map_some']
    rw [show ((((0 + (lengths.take i).sum : ℕ)) : ℤ) + ((1 : ℕ) : ℤ) - 1)
        = (((0 + (lengths.take i).sum : ℕ)) : ℤ) from by omega]
    rw [pySlice_self]
  have htg : (target_emb_list emb lengths 0).get? i = some [] := by
    rw [target_emb_list_get? emb lengths 0 i, h1]
    simp only [Option.map_some']
    rw [show ((((0 + (lengths.take i).sum : ℕ)) : ℤ) + ((1 : ℕ) : ℤ))
        = (((0 + (lengths.take i).sum : ℕ)) : ℤ) + 1 from by omega]
    rw [pySlice_self]
  have hfalse : (seqLengths lengths).all (fun L => 0 < L) = false := by
    rw [List.all_eq_false]
    exact ⟨(1 : ℤ) - 1, List.mem_map.mpr ⟨1, List.get?_mem h1, rfl⟩, by
      simp only [decide_eq_true_eq]; omega⟩
  refine ⟨hin, htg, ?_, ?_, ?_, ?_⟩
  · rw [padSequence_get?, hin]; simp
  · rw [padSequence_get?, htg]; simp
  · simp [compactedTargets, pack_padded_sequence, hfalse]
  · simp [compactedBTargets, pack_padded_sequence, hfalse]

/-- Witness for the amended C7 at `lengths = [2, 1]`, outfit index 1. -/
theorem claim7_amended_witness :
    (input_emb_list ([0, 1, 2] : List ℕ) [2, 1] 0).get? 1 = some [] ∧
    (target_emb_list ([0, 1, 2] : List ℕ) [2, 1] 0).get? 1 = some [] ∧
    (padSequence (99 : ℕ) (input_emb_list ([0, 1, 2] : List ℕ) [2, 1] 0)).get? 1
        = some (List.replicate (maxLenOf (input_emb_list ([0, 1, 2] : List ℕ) [2, 1] 0)) 99) ∧
    (padSequence (99 : ℕ) (target_emb_list ([0, 1, 2] : List ℕ) [2, 1] 0)).get? 1
        = some (List.replicate (maxLenOf (target_emb_list ([0, 1, 2] : List ℕ) [2, 1] 0)) 99) ∧
    compactedTargets (99 : ℕ) ([0, 1, 2] : List ℕ) [2, 1] = none ∧
    compactedBTargets (99 : ℕ) ([0, 1, 2] : List ℕ) [2, 1] = none :=
  claim7_amended_padding_row_then_error 99 [0, 1, 2] [2, 1] 1 (by decide)

/-- C10.  Whenever the effective lengths are not sorted in non-increasing
order, the target-compaction step (`pack_padded_sequence` with its default
sorted-lengths enforcement) raises instead of producing either compacted
target tensor. -/
theorem claim10_unsorted_lengths_error {α : Type} (z : α) (emb : List α)
    (lengths : List ℕ) (hsort : sortedDesc (seqLengths lengths) = false) :
    compactedTargets z emb lengths = none ∧
    compactedBTargets z emb lengths = none := by
  constructor <;>
    simp [compactedTargets, compactedBTargets, pack_padded_sequence, hsort]

/-- Witness for C10 at the unsorted batch `lengths = [2, 3]`. -/
theorem claim10_witness :
    compactedTargets (99 : ℕ) [0, 1, 2, 3, 4] [2, 3] = none ∧
    compactedBTargets (99 : ℕ) [0, 1, 2, 3, 4] [2, 3] = none :=
  claim10_unsorted_lengths_error 99 [0, 1, 2, 3, 4] [2, 3] (by decide)

theorem filterMap_get?_length {α : Type} (rows : List (List α)) (t : ℕ) :
    (rows.filterMap (fun r => r.get? t)).length
      = rows.countP (fun r => decide (t < r.length)) := by
  induction rows with
  | nil => rfl
  | cons r rs ih =>
      rw [List.filterMap_cons, List.countP_cons]
      by_cases h : t < r.length
      · rw [List.get?_eq_get h]
        simp only [List.filterMap_cons_some, List.length_cons, h,
          decide_eq_true_eq, if_pos]
        simpa using ih
      · rw [List.get?_eq_none.mpr (by omega)]
        simp only [List.filterMap_cons_none, h, decide_eq_true_eq, if_false,
          Nat.add_zero]
        simpa using ih

theorem sum_map_add_nat {β : Type} (l : List β) (f g : β → ℕ) :
    (l.map (fun x => f x + g x)).sum = (l.map f).sum + (l.map g).sum := by
  induction l with
  | nil => rfl
  | cons a l ih => simp only [List.map_cons, List.sum_cons, ih]; omega

theorem sum_range_ite (T n : ℕ) :
    ((List.range T).map (fun t => if t < n then 1 else 0)).sum = min n T := by
  induction T with
  | zero => simp
  | succ T ih =>
      rw [List.range_succ, List.map_append, List.sum_append, ih]
      by_cases h : T < n <;> simp [h] <;> omega

theorem sum_count_eq {α : Type} (rows : List (List α)) (T : ℕ)
    (hT : ∀ r ∈ rows, r.length ≤ T) :
    ((List.range T).map (fun t => rows.countP (fun r => decide (t < r.length)))).sum
      = (rows.map List.length).sum := by
  induction rows with
  | nil => simp
  | cons r rs ih =>
      have h1 : ∀ x ∈ rs, x.length ≤ T := fun x hx => hT x (List.mem_cons_of_mem _ hx)
      have h2 : ((List.range T).map
          (fun t => (r :: rs).countP (fun r' => decide (t < r'.length))))
          = ((List.range T).map (fun t =>
              rs.countP (fun r' => decide (t < r'.length)) + if t < r.length then 1 else 0)) := by
        apply List.map_congr_left
        intro t _
        rw [List.countP_cons]
        by_cases h : t < r.length <;> simp [h]
      rw [h2, sum_map_add_nat, ih h1, sum_range_ite]
      have := hT r (List.mem_cons_self r rs)
      simp only [List.map_cons, List.sum_cons]
      omega

/-- The time-major flattening keeps exactly one entry per valid timestep:
its length is the sum of the row lengths. -/
theorem timeMajorFlatten_length {α : Type} (rows : List (List α)) :
    (timeMajorFlatten rows).length = (rows.map List.length).sum := by
  rw [timeMajorFlatten, List.length_flatten, List.map_map]
  have h : (List.range (maxLenOf rows)).map
      (List.length ∘ fun t => rows.filterMap fun s => s.get? t)
      = (List.range (maxLenOf rows)).map
        (fun t => rows.countP (fun r => decide (t < r.length))) := by
    apply List.map_congr_left
    intro t _
    exact filterMap_get?_length rows t
  rw [h, sum_count_eq rows _ (le_maxLenOf rows)]

theorem epochEvents_assoc (nT nV : ℕ) :
    epochEvents nT nV
      = Event.schedStep :: (List.replicate nT Event.optStep ++
          ([Event.saveF, Event.saveB, Event.saveEnc] ++
            List.replicate nV Event.valBatch)) := by
  simp [epochEvents, List.append_assoc]

theorem count_sched_epochEvents (nT nV : ℕ) :
    (epochEvents nT nV).count Event.schedStep = 1 := by
  rw [epochEvents_assoc, List.count_cons_self]
  have h : (List.replicate nT Event.optStep ++
      ([Event.saveF, Event.saveB, Event.saveEnc] ++
        List.replicate nV Event.valBatch)).count Event.schedStep = 0 := by
    rw [List.count_eq_zero]
    simp [List.mem_append, List.mem_replicate]
  rw [h]

theorem count_sched_runEvents (eps nT nV : ℕ) :
    (runEvents eps nT nV).count Event.schedStep = eps := by
  induction eps with
  | zero => rfl
  | succ e ih =>
      rw [runEvents, List.range_succ, List.map_append, List.flatten_append]
      rw [List.count_append]
      rw [show (((List.range e).map (fun _ => epochEvents nT nV)).flatten
        = runEvents e nT nV) from rfl, ih]
      simp [count_sched_epochEvents]

/-- C4.  For every batch, whenever the training step produces losses at all,
the backpropagated total loss component is exactly the arithmetic sum of the
forward-direction and backward-direction cross-entropy losses — no averaging
over the two directions. -/
theorem claim4_total_loss_sum {K : Type} [Field K] (ex lg : K → K)
    (F B : List (List (List K)) → List ℤ → List (List K)) (D : ℕ)
    (emb : List (List K)) (lengths : List ℕ) :
    (trainBatchLosses ex lg F B D emb lengths).map (fun o => o.2.2)
      = (trainBatchLosses ex lg F B D emb lengths).map (fun o => o.1 + o.2.1) := by
  simp only [trainBatchLosses]
  cases pack_padded_sequence (padSequence (zeroRow D) (target_emb_list emb lengths 0))
      (seqLengths lengths) with
  | none =>
      cases pack_padded_sequence (padSequence (zeroRow D)
          ((input_emb_list emb lengths 0).map flip_tensor)) (seqLengths lengths) <;> rfl
  | some fT =>
      cases pack_padded_sequence (padSequence (zeroRow D)
          ((input_emb_list emb lengths 0).map flip_tensor)) (seqLengths lengths) with
      | none => rfl
      | some bT =>
          dsimp only
          cases criterion ex lg (matmulT
              (F (padSequence (zeroRow D) (input_emb_list emb lengths 0))
                (seqLengths lengths)) fT) with
          | none => rfl
          | some f_loss =>
              cases criterion ex lg (matmulT
                  (B (padSequence (zeroRow D)
                    ((target_emb_list emb lengths 0).map flip_tensor))
                    (seqLengths lengths)) bT) with
              | none => rfl
              | some b_loss => rfl

/-- C6 counterexample.  With one encoder-output row and two compacted target
rows (mismatched counts), the program computes a 1 by 2 similarity matrix and
a loss anyway: no explicit count check exists and nothing fails fast. -/
theorem claim6_no_count_check :
    ([[(1 : ℚ)]] : List (List ℚ)).length ≠ ([[(2 : ℚ)], [(3 : ℚ)]] : List (List ℚ)).length ∧
    matmulT [[(1 : ℚ)]] [[(2 : ℚ)], [(3 : ℚ)]] = [[2, 3]] ∧
    (criterion id id (matmulT [[(1 : ℚ)]] [[(2 : ℚ)], [(3 : ℚ)]])).isSome = true := by
  refine ⟨by decide, ?_, ?_⟩
  · norm_num [matmulT, dot]
  · norm_num [matmulT, dot, criterion, List.enum]

/-- C6 (amended).  The program performs no count check; instead, equality of
the similarity matrix dimensions holds by construction: for a valid batch
the compacted target count is the total effective length, and when the
encoder honours its contract of one output row per valid timestep the matrix
is square with that side. -/
theorem claim6_amended_square_by_construction {K : Type} [Field K]
    (F : List (List (List K)) → List ℤ → List (List K)) (D : ℕ)
    (emb : List (List K)) (lengths : List ℕ)
    (hsum : lengths.sum = emb.length) (hall : ∀ M ∈ lengths, 2 ≤ M)
    (hsort : sortedDesc (seqLengths lengths) = true)
    (hF : (F (padSequence (zeroRow D) (input_emb_list emb lengths 0))
        (seqLengths lengths)).length = (lengths.map (fun M => M - 1)).sum) :
    (compactedTargets (zeroRow D) emb lengths).map List.length
        = some ((lengths.map (fun M => M - 1)).sum) ∧
    (compactedTargets (zeroRow D) emb lengths).map (fun fT =>
        (matmulT (F (padSequence (zeroRow D) (input_emb_list emb lengths 0))
          (seqLengths lengths)) fT).length)
        = some ((lengths.map (fun M => M - 1)).sum) ∧
    (compactedTargets (zeroRow D) emb lengths).map (fun fT =>
        (matmulT (F (padSequence (zeroRow D) (input_emb_list emb lengths 0))
          (seqLengths lengths)) fT).all
          (fun row => row.length == (lengths.map (fun M => M - 1)).sum))
        = some true := by
  have hpack : compactedTargets (zeroRow D) emb lengths
      = some (timeMajorFlatten (target_emb_list emb lengths 0)) := by
    rw [compactedTargets]
    exact pack_padSequence_eq (zeroRow D) (target_emb_list emb lengths 0)
      (seqLengths lengths) (seqLengths_eq_target_lengths emb lengths hsum hall)
      (seqLengths_pos lengths hall) hsort
  have hlen : (timeMajorFlatten (target_emb_list emb lengths 0)).length
      = (lengths.map (fun M => M - 1)).sum := by
    rw [timeMajorFlatten_length, target_lengths_nat emb lengths hsum hall]
  refine ⟨?_, ?_, ?_⟩
  · rw [hpack, Option.map_some', hlen]
  · rw [hpack, Option.map_some']
    simp only [matmulT, List.length_map, hF]
  · rw [hpack, Option.map_some', Option.some.injEq]
    rw [List.all_eq_true]
    intro row hrow
    obtain ⟨r, _, rfl⟩ := List.mem_map.mp hrow
    simp [hlen]

/-- Witness for the amended C6 at `lengths = [3, 3]` over rational embeddings,
with an encoder stub meeting the one-row-per-valid-timestep contract. -/
theorem claim6_amended_witness :
    (compactedTargets (zeroRow 1) [[(0 : ℚ)], [1], [2], [3], [4], [5]] [3, 3]).map List.length
        = some (([3, 3].map (fun M => M - 1)).sum) ∧
    (compactedTargets (zeroRow 1) [[(0 : ℚ)], [1], [2], [3], [4], [5]] [3, 3]).map (fun fT =>
        (matmulT ((fun _ _ => [[1], [1], [1], [1]])
            (padSequence (zeroRow 1)
              (input_emb_list [[(0 : ℚ)], [1], [2], [3], [4], [5]] [3, 3] 0))
            (seqLengths [3, 3])) fT).length)
        = some (([3, 3].map (fun M => M - 1)).sum) ∧
    (compactedTargets (zeroRow 1) [[(0 : ℚ)], [1], [2], [3], [4], [5]] [3, 3]).map (fun fT =>
        (matmulT ((fun _ _ => [[1], [1], [1], [1]])
            (padSequence (zeroRow 1)
              (input_emb_list [[(0 : ℚ)], [1], [2], [3], [4], [5]] [3, 3] 0))
            (seqLengths [3, 3])) fT).all
          (fun row => row.length == ([3, 3].map (fun M => M - 1)).sum))
        = some true :=
  claim6_amended_square_by_construction (fun _ _ => [[1], [1], [1], [1]]) 1
    [[(0 : ℚ)], [1], [2], [3], [4], [5]] [3, 3]
    (by decide) (by decide) (by decide) (by decide)

/-- C8 counterexample.  In a one-batch epoch the schedule advance is the very
first action, before the optimizer step — not after the train phase as the
claim asserts. -/
theorem claim8_scheduler_before_optimizer :
    (epochEvents 1 0).get? 0 = some Event.schedStep ∧
    (epochEvents 1 0).get? 1 = some Event.optStep ∧
    (epochEvents 1 0).indexOf Event.schedStep < (epochEvents 1 0).indexOf Event.optStep := by
  decide

/-- C8 (amended).  The schedule is advanced exactly once per epoch, but at the
start of the epoch, before any of the epoch's optimizer steps; the three model
checkpoints are persisted right after the train phase (before validation). -/
theorem claim8_amended_scheduler_at_epoch_start (eps nT nV : ℕ) :
    (epochEvents nT nV).take (nT + 1)
        = Event.schedStep :: List.replicate nT Event.optStep ∧
    (epochEvents nT nV).drop (nT + 1)
        = [Event.saveF, Event.saveB, Event.saveEnc] ++
            List.replicate nV Event.valBatch ∧
    (epochEvents nT nV).count Event.schedStep = 1 ∧
    (runEvents eps nT nV).count Event.schedStep = eps := by
  refine ⟨?_, ?_, count_sched_epochEvents nT nV, count_sched_runEvents eps nT nV⟩
  · rw [epochEvents_assoc, List.take_succ_cons,
      List.take_left' (List.length_replicate nT Event.optStep)]
  · rw [epochEvents_assoc, List.drop_succ_cons,
      List.drop_left' (List.length_replicate nT Event.optStep)]

/-- C9.  The validation phase's forward computation is definitionally the
training phase's (the loss pipelines agree on every batch), the tail of the
epoch trace after the checkpoint saves consists solely of validation batches,
and folding the parameter-update semantics over that validation segment
leaves the model parameters unchanged — no parameter is updated in eval. -/
theorem claim9_eval_identical_no_update {K : Type} [Field K] {P : Type}
    (ex lg : K → K) (F B : List (List (List K)) → List ℤ → List (List K))
    (D : ℕ) (emb : List (List K)) (lengths : List ℕ)
    (p : P) (upd : P → P) (nT nV : ℕ) :
    valBatchLosses ex lg F B D emb lengths
        = trainBatchLosses ex lg F B D emb lengths ∧
    (epochEvents nT nV).drop (nT + 4) = List.replicate nV Event.valBatch ∧
    List.foldl (stepParam upd) p (List.replicate nV Event.valBatch) = p := by
  refine ⟨rfl, ?_, ?_⟩
  · have h : epochEvents nT nV
        = (Event.schedStep :: (List.replicate nT Event.optStep ++
            [Event.saveF, Event.saveB, Event.saveEnc])) ++
          List.replicate nV Event.valBatch := by
      simp [epochEvents, List.append_assoc]
    rw [h, List.drop_left' (by simp)]
  · induction nV with
    | zero => rfl
    | succ n ih =>
        rw [List.replicate_succ, List.foldl_cons]
        exact ih

end BiLSTMTrain
